import Mathlib

/-!
Verification development for the location-search widget
(`src/components/SearchBar.tsx`).

JavaScript strings are modelled as Lean `String` / `List Char`
(one `Char` per code point); JS `toUpperCase`/`toLowerCase` are modelled
per-character by `Char.toUpper`/`Char.toLower`, which agree with JS on the
ASCII range relevant here.  React `useState` cells are gathered into one
record `WidgetState`; each event handler is a function from the pre-state
to the post-state together with the list of external effects it performs
(network requests, the location-selected callback, console logging).
The `async` body of `debouncedSearch` is split at its single `await` into
a synchronous start (`debouncedSearchStart`) and a continuation that runs
when the geocoding promise settles (`searchResolveOk` / `searchResolveErr`).
-/

/-- Structured address fields of a geocoding result; only `country_code`
and `postcode` are read by the widget (`result.address?.country_code`,
`result.address?.postcode`). -/
structure Address where
  country_code : Option String
  postcode : Option String
deriving Repr, DecidableEq

/-- One candidate location returned by the geocoding client
(`SearchResult` from `../types/location`; that file is not in the
repository snapshot, so the fields are the ones the widget reads:
`display_name` and the optional `address`). -/
structure SearchResult where
  display_name : String
  address : Option Address
deriving Repr, DecidableEq

/-- The four `useState` cells of `SearchBar` (lines 14-17):
`searchQuery`, `searchResults`, `isLoading`, `selectedIndex`. -/
structure WidgetState where
  searchQuery : String
  searchResults : List SearchResult
  isLoading : Bool
  selectedIndex : Int
deriving Repr, DecidableEq

/-- The initial state of the widget: `useState('')`, `useState([])`,
`useState(false)`, `useState(-1)`. -/
def initialState : WidgetState :=
  { searchQuery := "", searchResults := [], isLoading := false, selectedIndex := -1 }

/-- Externally observable effects of the handlers: a network request to
`searchLocation`, the `onLocationSelect` callback, and `console.error`
logging. -/
inductive Eff where
  | request (query : String)
  | locSelect (result : SearchResult)
  | log (msg : String)
deriving Repr, DecidableEq

/-- JS `String.prototype.trim`: drop leading and trailing whitespace.
Modelled over the character list (JS trims a slightly larger whitespace
set; they agree on ASCII input). -/
def jsTrim (s : String) : String :=
  String.mk (((s.data.dropWhile Char.isWhitespace).reverse.dropWhile Char.isWhitespace).reverse)

/-- Synchronous prefix of the async callback passed to `useDebounce`
(SearchBar.tsx lines 20-28): on a blank query (`!query.trim()`) it clears
the results and returns without any network call; otherwise it sets
`isLoading` and issues the `searchLocation(query)` request, suspending at
the `await`. -/
def debouncedSearchStart (s : WidgetState) (query : String) : WidgetState × List Eff :=
  if jsTrim query = "" then
    ({ s with searchResults := [] }, [])
  else
    ({ s with isLoading := true }, [Eff.request query])

/-- Continuation of `debouncedSearch` when `searchLocation` resolves
successfully (lines 28-29 and the `finally` on line 34):
`setSearchResults(results); setIsLoading(false)`.  The response is applied
unconditionally — the code carries no query tag or epoch, so whichever
response arrives is written to the state. -/
def searchResolveOk (s : WidgetState) (results : List SearchResult) : WidgetState × List Eff :=
  ({ s with searchResults := results, isLoading := false }, [])

/-- Continuation of `debouncedSearch` when `searchLocation` rejects
(lines 30-35): `console.error('Search failed:', error);
setSearchResults([])`, then the `finally` clears `isLoading`.  The catch
swallows the error, so no exception escapes to the caller. -/
def searchResolveErr (s : WidgetState) : WidgetState × List Eff :=
  ({ s with searchResults := [], isLoading := false }, [Eff.log "Search failed:"])

/-- `handleInputChange` (lines 38-43): store the new text, reset the
selection to `-1`, and route the text through the debounce scheduler
towards `debouncedSearch`. -/
def handleInputChange (s : WidgetState) (value : String) : WidgetState :=
  { s with searchQuery := value, selectedIndex := -1 }

/-- `handleSelectResult` (lines 45-50): forward the chosen result to
`onLocationSelect`, then clear the results, the query, and the selection
index. -/
def handleSelectResult (s : WidgetState) (result : SearchResult) : WidgetState × List Eff :=
  ({ s with searchResults := [], searchQuery := "", selectedIndex := -1 },
   [Eff.locSelect result])

/-- The `onEscape` handler passed to `useKeyboardNavigation`
(lines 61-64): clear the results and reset the selection. -/
def onEscape (s : WidgetState) : WidgetState :=
  { s with searchResults := [], selectedIndex := -1 }

/-- Modelled from the spec: the `useKeyboardNavigation` hook is imported
from `src/hooks/useKeyboardNavigation`, which is not in the repository
snapshot.  Spec section 4.3: `ArrowDown` moves the index to
`min(index+1, resultCount-1)`, clamped, and any transition with
`resultCount = 0` is a no-op. -/
def arrowDown (count : Nat) (i : Int) : Int :=
  if count = 0 then i else min (i + 1) ((count : Int) - 1)

/-- Discrete events driving the widget: a keystroke, the debounce timer
firing with the captured text, the geocoding promise settling (with a
payload or an error), a keyboard `ArrowDown`, `Escape`, and a click
committing one result. -/
inductive Event where
  | input (text : String)
  | fire (text : String)
  | resolveOk (results : List SearchResult)
  | resolveErr
  | keyArrowDown
  | keyEscape
  | select (result : SearchResult)
deriving Repr, DecidableEq

/-- One step of the widget: dispatch an event to the handler the source
wires it to, returning the next state and the effects performed. -/
def runStep (s : WidgetState) (e : Event) : WidgetState × List Eff :=
  match e with
  | Event.input text => (handleInputChange s text, [])
  | Event.fire text => debouncedSearchStart s text
  | Event.resolveOk results => searchResolveOk s results
  | Event.resolveErr => searchResolveErr s
  | Event.keyArrowDown =>
      ({ s with selectedIndex := arrowDown s.searchResults.length s.selectedIndex }, [])
  | Event.keyEscape => (onEscape s, [])
  | Event.select result => handleSelectResult s result

/-- Run a sequence of events from a state, collecting all effects in
order. -/
def runTrace (s : WidgetState) (es : List Event) : WidgetState × List Eff :=
  match es with
  | [] => (s, [])
  | e :: rest =>
      let (s1, effs1) := runStep s e
      let (s2, effs2) := runTrace s1 rest
      (s2, effs1 ++ effs2)

/-- Case-insensitive character comparison, modelling the `i` flag of the
regular expression in `highlightMatch` and the `toLowerCase()` equality
check on line 84. -/
def charEqCI (a b : Char) : Bool :=
  a.toLower == b.toLower

/-- `matchesAt eqc q t` holds when `q` matches the first `q.length`
characters of `t` under the character comparison `eqc`. -/
def matchesAt (eqc : Char → Char → Bool) : List Char → List Char → Bool
  | [], _ => true
  | _ :: _, [] => false
  | a :: q, b :: t => eqc a b && matchesAt eqc q t

/-- Index of the leftmost occurrence of `q` in `t` under `eqc`, the
position at which a (non-overlapping, leftmost-first) pattern engine
finds its next match. -/
def findIdx (eqc : Char → Char → Bool) (q : List Char) : List Char → Option Nat
  | [] => if matchesAt eqc q [] then some 0 else none
  | b :: t => if matchesAt eqc q (b :: t) then some 0 else (findIdx eqc q t).map (· + 1)

theorem matchesAt_nil_iff (eqc : Char → Char → Bool) (q : List Char) :
    matchesAt eqc q [] = true ↔ q = [] := by
  cases q <;> simp [matchesAt]

theorem findIdx_nil_none (eqc : Char → Char → Bool) (q : List Char) (hq : q ≠ []) :
    findIdx eqc q [] = none := by
  simp [findIdx, matchesAt_nil_iff, hq]

theorem matchesAt_length_le (eqc : Char → Char → Bool) :
    ∀ (q t : List Char), matchesAt eqc q t = true → q.length ≤ t.length := by
  intro q
  induction q with
  | nil => intro t _; simp
  | cons a q ih =>
      intro t h
      cases t with
      | nil => simp [matchesAt] at h
      | cons b t =>
          simp only [matchesAt, Bool.and_eq_true] at h
          simpa using Nat.succ_le_succ (ih t h.2)

theorem findIdx_bound (eqc : Char → Char → Bool) (q : List Char) :
    ∀ (t : List Char) (i : Nat), findIdx eqc q t = some i →
      matchesAt eqc q (t.drop i) = true ∧ i + q.length ≤ t.length := by
  intro t
  induction t with
  | nil =>
      intro i h
      simp only [findIdx] at h
      split at h
      · rename_i hm
        cases h
        have hq : q = [] := (matchesAt_nil_iff eqc q).mp hm
        subst hq
        exact ⟨rfl, by simp⟩
      · cases h
  | cons b t ih =>
      intro i h
      simp only [findIdx] at h
      split at h
      · rename_i hm
        cases h
        exact ⟨hm, by simpa using matchesAt_length_le eqc q (b :: t) hm⟩
      · cases hrec : findIdx eqc q t with
        | none => rw [hrec] at h; cases h
        | some j =>
            rw [hrec] at h
            simp only [Option.map] at h
            cases h
            have hj := ih j hrec
            constructor
            · simpa [List.drop_succ_cons] using hj.1
            · have := Nat.add_le_add_right hj.2 1
              simp only [List.length_cons]
              omega

/-- Recursion core of the capturing split: `fuel` bounds the number of
remaining recursion steps (each step consumes at least one character of
`t`, so `t.length` fuel always suffices); it only makes the recursion
structural, it never changes the result on adequate fuel. -/
def splitKeepGo (eqc : Char → Char → Bool) (q : List Char) : Nat → List Char → List (List Char)
  | 0, t => [t]
  | fuel + 1, t =>
      match findIdx eqc q t with
      | none => [t]
      | some i =>
          t.take i :: (t.drop i).take q.length ::
            splitKeepGo eqc q fuel ((t.drop i).drop q.length)

/-- `text.split(new RegExp('(' + escapedQuery + ')', 'gi'))`
(SearchBar.tsx line 81), modelled for an escaped (hence literal) pattern:
split `t` at every leftmost occurrence of `q` under `eqc`, keeping each
occurrence as its own element, exactly as a capturing group does.  Empty
between-pieces are kept, as in JS. -/
def splitKeep (eqc : Char → Char → Bool) (q t : List Char) : List (List Char) :=
  if q = [] then [t] else splitKeepGo eqc q t.length t

/-- Recursion core of the separator-dropping split, with the same fuel
scheme as `splitKeepGo`. -/
def splitDropGo (eqc : Char → Char → Bool) (q : List Char) : Nat → List Char → List (List Char)
  | 0, t => [t]
  | fuel + 1, t =>
      match findIdx eqc q t with
      | none => [t]
      | some i => t.take i :: splitDropGo eqc q fuel ((t.drop i).drop q.length)

/-- `displayName.split(', ')` (SearchBar.tsx line 98), modelled for the
literal separator: split `t` at every leftmost occurrence of `q`,
dropping the separators (no capturing group). -/
def splitDrop (eqc : Char → Char → Bool) (q t : List Char) : List (List Char) :=
  if q = [] then [t] else splitDropGo eqc q t.length t

/-- `parts.join(sep)`: intercalate a separator list between pieces. -/
def joinWith (sep : List Char) : List (List Char) → List Char
  | [] => []
  | [p] => p
  | p :: ps => p ++ sep ++ joinWith sep ps

/-- One segment of the highlighted output: a `<span>` either carrying the
match styling (`isMatch` true, line 86) or plain (line 88). -/
inductive Hseg where
  | matched (text : String)
  | plain (text : String)
deriving Repr, DecidableEq

/-- The text carried by a segment. -/
def hsegText : Hseg → String
  | Hseg.matched t => t
  | Hseg.plain t => t

/-- Whether a segment carries the match styling. -/
def hsegIsMatched : Hseg → Bool
  | Hseg.matched _ => true
  | Hseg.plain _ => false

/-- Return type of `highlightMatch`: either the raw input string (blank
query on line 77, or the `catch` fallback on line 93) or the list of
tagged spans built on lines 83-90. -/
inductive HighlightResult where
  | raw (text : String)
  | segs (parts : List Hseg)
deriving Repr, DecidableEq

/-- `highlightMatch` (SearchBar.tsx lines 76-95).  A blank query returns
the text untouched.  Otherwise the query is metacharacter-escaped
(line 80) so the regular expression on line 81 matches it literally and
case-insensitively; the capturing split is `splitKeep charEqCI`.  Each
part is tagged matched exactly when `part.toLowerCase() ===
query.toLowerCase()` (line 84).  The Lean model is total, so the `catch`
arm (lines 91-94) is unreachable: no internal failure exists. -/
def highlightMatch (text query : String) : HighlightResult :=
  if jsTrim query = "" then HighlightResult.raw text
  else
    HighlightResult.segs
      ((splitKeep charEqCI query.data text.data).map fun part =>
        if part.map Char.toLower == query.data.map Char.toLower then
          Hseg.matched (String.mk part)
        else
          Hseg.plain (String.mk part))

/-- The text a `HighlightResult` renders: the raw string, or the
concatenation of the segments in order. -/
def renderText : HighlightResult → String
  | HighlightResult.raw t => t
  | HighlightResult.segs ps => String.mk (List.flatten (ps.map fun s => (hsegText s).data))

/-- `getFlagEmoji` (SearchBar.tsx lines 67-74): absent or empty country
code (both falsy in JS) gives the empty string; otherwise uppercase the
code, map each character to `127397 + charCode`, and build the string of
those code points. -/
def getFlagEmoji (countryCode : Option String) : String :=
  match countryCode with
  | none => ""
  | some cc =>
      if cc = "" then ""
      else String.mk ((cc.data.map Char.toUpper).map fun ch => Char.ofNat (127397 + ch.toNat))

/-- The pair returned by `getLocationDetails`. -/
structure LocationDetails where
  mainText : String
  secondaryText : String
deriving Repr, DecidableEq

/-- `getLocationDetails` (SearchBar.tsx lines 97-103):
`displayName.split(', ')`, first part as `mainText`, remaining parts
rejoined with `', '` as `secondaryText`. -/
def getLocationDetails (displayName : String) : LocationDetails :=
  let parts := splitDrop (fun a b => a == b) ", ".data displayName.data
  { mainText := String.mk parts.headI
    secondaryText := String.mk (joinWith ", ".data parts.tail) }

/-- Modelled from the spec: the `useDebounce` hook is imported from
`src/hooks/useDebounce`, which is not in the repository snapshot.  Spec
section 4.1: each call cancels any not-yet-fired prior scheduled call and
arms a new timer for `delayMs` later; a pending call is cancelled exactly
when the next call arrives strictly before its timer fires.  Given the
time-sorted list of calls `(t, a)`, return the executions that actually
fire, each at `t + delayMs` with its captured argument. -/
def debounceFires {α : Type} (delayMs : Nat) : List (Nat × α) → List (Nat × α)
  | [] => []
  | (t, a) :: rest =>
      match rest with
      | [] => [(t + delayMs, a)]
      | (u, b) :: more =>
          if u < t + delayMs then debounceFires delayMs ((u, b) :: more)
          else (t + delayMs, a) :: debounceFires delayMs ((u, b) :: more)

theorem toNat_ofNat_valid (n : Nat) (h : n.isValidChar) : (Char.ofNat n).toNat = n := by
  simp [Char.ofNat, h, Char.ofNatAux, Char.toNat, UInt32.toNat]

theorem toUpper_eq_of_lower (c : Char) (h : c.toNat ≥ 97 ∧ c.toNat ≤ 122) :
    c.toUpper = Char.ofNat (c.toNat - 32) := by
  unfold Char.toUpper
  simp only []
  rw [if_pos h]

theorem toUpper_eq_self (c : Char) (h : ¬(c.toNat ≥ 97 ∧ c.toNat ≤ 122)) :
    c.toUpper = c := by
  unfold Char.toUpper
  simp only []
  rw [if_neg h]

theorem toUpper_toUpper (c : Char) : c.toUpper.toUpper = c.toUpper := by
  by_cases h : (c.toNat ≥ 97 ∧ c.toNat ≤ 122)
  · rw [toUpper_eq_of_lower c h]
    have hv : (c.toNat - 32).isValidChar := Or.inl (by omega)
    have h2 : (Char.ofNat (c.toNat - 32)).toNat = c.toNat - 32 := toNat_ofNat_valid _ hv
    rw [toUpper_eq_self]
    rw [h2]
    omega
  · rw [toUpper_eq_self c h]; exact toUpper_eq_self c h

/-- C2: for every state and every `SearchResult`, `handleSelectResult`
invokes the location-selected callback exactly once with exactly that
result, and the post-state has `searchQuery = ""`, `searchResults = []`
and `selectedIndex = -1`, the widget's empty initial state. -/
theorem commit_resets_state (s : WidgetState) (result : SearchResult) :
    (handleSelectResult s result).2 = [Eff.locSelect result] ∧
    (handleSelectResult s result).1.searchQuery = "" ∧
    (handleSelectResult s result).1.searchResults = [] ∧
    (handleSelectResult s result).1.selectedIndex = -1 := by
  simp [handleSelectResult]

/-- C3: for every input whose trimmed form is empty, the debounced search
body clears the results, performs no effect at all (in particular it
never invokes the geocoding client), and leaves `isLoading` at `false`
when it was `false`. -/
theorem blank_query_no_request (s : WidgetState) (text : String)
    (htrim : jsTrim text = "") (hload : s.isLoading = false) :
    (debouncedSearchStart s text).2 = [] ∧
    (debouncedSearchStart s text).1.searchResults = [] ∧
    (debouncedSearchStart s text).1.isLoading = false := by
  simp [debouncedSearchStart, htrim, hload]

theorem blank_query_no_request_witness :
    (debouncedSearchStart initialState "   ").2 = [] ∧
    (debouncedSearchStart initialState "   ").1.searchResults = [] ∧
    (debouncedSearchStart initialState "   ").1.isLoading = false :=
  blank_query_no_request initialState "   " (by decide) (by decide)

/-- C4: for every non-empty query, when the geocoding call fails the
search cycle issues exactly the one request, then clears the results,
logs `Search failed:`, ends with `isLoading = false`, and — being a total
function from state to state — propagates no exception to the caller. -/
theorem search_failure_degrades (s : WidgetState) (query : String)
    (hq : jsTrim query ≠ "") :
    (debouncedSearchStart s query).2 = [Eff.request query] ∧
    (searchResolveErr (debouncedSearchStart s query).1).1.searchResults = [] ∧
    (searchResolveErr (debouncedSearchStart s query).1).1.isLoading = false ∧
    (searchResolveErr (debouncedSearchStart s query).1).2 = [Eff.log "Search failed:"] := by
  simp [debouncedSearchStart, hq, searchResolveErr]

theorem search_failure_degrades_witness :
    (debouncedSearchStart initialState "paris").2 = [Eff.request "paris"] ∧
    (searchResolveErr (debouncedSearchStart initialState "paris").1).1.searchResults = [] ∧
    (searchResolveErr (debouncedSearchStart initialState "paris").1).1.isLoading = false ∧
    (searchResolveErr (debouncedSearchStart initialState "paris").1).2
      = [Eff.log "Search failed:"] :=
  search_failure_degrades initialState "paris" (by decide)

/-- C1: the claim fails on the code.  `debouncedSearch` carries no query
tag or epoch, and its resolution handler writes whatever response arrives
straight into `searchResults`.  In the interleaving where query "a" is
issued, then query "ab", the response R2 for "ab" arrives first and the
slow response R1 for "a" arrives last, the final displayed results are
the stale R1, not R2. -/
theorem stale_response_overwrites :
    (runTrace initialState
      [Event.input "a", Event.fire "a", Event.input "ab", Event.fire "ab",
       Event.resolveOk [SearchResult.mk "AB Result" none],
       Event.resolveOk [SearchResult.mk "A Result" none]]).1.searchResults
      = [SearchResult.mk "A Result" none] ∧
    [SearchResult.mk "A Result" none] ≠ [SearchResult.mk "AB Result" none] := by
  constructor
  · rfl
  · decide

/-- C9 counterexample: a search resolution replaces the result list
without resetting the selection index.  Type "a", let its two results
arrive, type "ab" (index reset to -1), press ArrowDown while the "ab"
search is in flight (index becomes 0 over the still-displayed old list),
then let the "ab" response arrive: the list is replaced by the new one
yet `selectedIndex` is still 0, not -1. -/
theorem selection_survives_resolution :
    (runTrace initialState
      [Event.input "a", Event.fire "a",
       Event.resolveOk [SearchResult.mk "A1" none, SearchResult.mk "A2" none],
       Event.input "ab", Event.fire "ab",
       Event.keyArrowDown,
       Event.resolveOk [SearchResult.mk "AB1" none]]).1.searchResults
      = [SearchResult.mk "AB1" none] ∧
    (runTrace initialState
      [Event.input "a", Event.fire "a",
       Event.resolveOk [SearchResult.mk "A1" none, SearchResult.mk "A2" none],
       Event.input "ab", Event.fire "ab",
       Event.keyArrowDown,
       Event.resolveOk [SearchResult.mk "AB1" none]]).1.selectedIndex = 0 := by
  exact ⟨rfl, by decide⟩

/-- C9 amended: the selection index is reset to -1 by every synchronous
list-replacing operation — input change, commit, and escape — but an
asynchronous search resolution (success or failure) replaces the result
list while leaving the selection index unchanged. -/
theorem selection_reset_on_sync_ops (s : WidgetState) (v : String)
    (r : SearchResult) (rs : List SearchResult) :
    (handleInputChange s v).selectedIndex = -1 ∧
    (handleSelectResult s r).1.selectedIndex = -1 ∧
    (onEscape s).selectedIndex = -1 ∧
    (searchResolveOk s rs).1.selectedIndex = s.selectedIndex ∧
    (searchResolveErr s).1.selectedIndex = s.selectedIndex := by
  simp [handleInputChange, handleSelectResult, onEscape, searchResolveOk, searchResolveErr]

/-- C6: `getFlagEmoji` maps a two-letter code to the two regional
indicator code points obtained by adding 127397 to each uppercased
character's code, is case-insensitive (uppercasing the input first gives
the same flag), and returns `""` for an absent code. -/
theorem flagEmoji_spec (c d : Char) :
    getFlagEmoji (some (String.mk [c, d])) =
      String.mk [Char.ofNat (127397 + c.toUpper.toNat),
                 Char.ofNat (127397 + d.toUpper.toNat)] ∧
    getFlagEmoji (some (String.mk [c, d])) =
      getFlagEmoji (some (String.mk [c.toUpper, d.toUpper])) ∧
    getFlagEmoji none = "" := by
  refine ⟨?_, ?_, rfl⟩
  · simp [getFlagEmoji, String.ext_iff]
  · simp [getFlagEmoji, String.ext_iff, toUpper_toUpper]

theorem splitDropGo_ne_nil (eqc : Char → Char → Bool) (q : List Char) :
    ∀ (fuel : Nat) (t : List Char), splitDropGo eqc q fuel t ≠ [] := by
  intro fuel t
  cases fuel with
  | zero => simp [splitDropGo]
  | succ n =>
      simp only [splitDropGo]
      cases findIdx eqc q t <;> simp

theorem matchesAt_beq_take :
    ∀ (q s : List Char), matchesAt (fun a b => a == b) q s = true → s.take q.length = q := by
  intro q
  induction q with
  | nil => intro s _; simp
  | cons a q ih =>
      intro s h
      cases s with
      | nil => simp [matchesAt] at h
      | cons b s =>
          simp only [matchesAt, Bool.and_eq_true, beq_iff_eq] at h
          simp [List.take_succ_cons, ih s h.2, h.1]

theorem joinWith_splitDropGo (q : List Char) (hq : q ≠ []) :
    ∀ (fuel : Nat) (t : List Char), t.length ≤ fuel →
      joinWith q (splitDropGo (fun a b => a == b) q fuel t) = t := by
  intro fuel
  induction fuel with
  | zero =>
      intro t ht
      have htn : t = [] := List.length_eq_zero.mp (Nat.le_zero.mp ht)
      subst htn
      rfl
  | succ n ih =>
      intro t ht
      simp only [splitDropGo]
      cases hf : findIdx (fun a b => a == b) q t with
      | none => rfl
      | some i =>
          show joinWith q
            (t.take i :: splitDropGo (fun a b => a == b) q n ((t.drop i).drop q.length)) = t
          have hb := findIdx_bound _ q t i hf
          have htake := matchesAt_beq_take q (t.drop i) hb.1
          have hql : 0 < q.length := List.length_pos.mpr hq
          have ht0 : 0 < t.length := by
            cases t with
            | nil => rw [findIdx_nil_none _ q hq] at hf; cases hf
            | cons b t2 => simp
          have hrest : ((t.drop i).drop q.length).length ≤ n := by
            simp only [List.length_drop]
            omega
          have hrec := ih _ hrest
          cases hsp : splitDropGo (fun a b => a == b) q n ((t.drop i).drop q.length) with
          | nil => exact absurd hsp (splitDropGo_ne_nil _ q n _)
          | cons r rs =>
              rw [hsp] at hrec
              have hjw : joinWith q (t.take i :: r :: rs)
                  = t.take i ++ q ++ joinWith q (r :: rs) := rfl
              rw [hjw, hrec]
              have hfull : t.take i ++ ((t.drop i).take q.length ++ (t.drop i).drop q.length)
                  = t := by
                rw [List.take_append_drop, List.take_append_drop]
              rw [htake] at hfull
              rw [List.append_assoc]
              exact hfull

theorem joinWith_splitDrop (q : List Char) (hq : q ≠ []) (t : List Char) :
    joinWith q (splitDrop (fun a b => a == b) q t) = t := by
  unfold splitDrop
  rw [if_neg hq]
  exact joinWith_splitDropGo q hq t.length t Nat.le.refl

theorem mk_append (a b : List Char) : String.mk a ++ String.mk b = String.mk (a ++ b) := rfl

/-- C7: `getLocationDetails` splits on `", "` and reassembles losslessly:
either the display name has a single segment, in which case `mainText` is
the whole name and `secondaryText` is empty, or
`mainText ++ ", " ++ secondaryText` reconstructs the display name exactly
(original casing and content, no other normalization); and on
`"Paris, Île-de-France, France"` it yields `mainText = "Paris"`,
`secondaryText = "Île-de-France, France"`. -/
theorem decompose_spec (displayName : String) :
    (((getLocationDetails displayName).mainText = displayName ∧
      (getLocationDetails displayName).secondaryText = "") ∨
     (getLocationDetails displayName).mainText ++ ", " ++
       (getLocationDetails displayName).secondaryText = displayName) ∧
    getLocationDetails "Paris, Île-de-France, France" =
      { mainText := "Paris", secondaryText := "Île-de-France, France" } := by
  refine ⟨?_, by decide⟩
  have hq : (", ".data : List Char) ≠ [] := by decide
  have hrec := joinWith_splitDrop ", ".data hq displayName.data
  cases hsp : splitDrop (fun a b => a == b) ", ".data displayName.data with
  | nil => exact absurd hsp (by unfold splitDrop; rw [if_neg hq]; exact splitDropGo_ne_nil _ _ _ _)
  | cons p ps =>
      rw [hsp] at hrec
      cases ps with
      | nil =>
          left
          have hpd : p = displayName.data := hrec
          constructor
          · show String.mk (splitDrop (fun a b => a == b) ", ".data displayName.data).headI
              = displayName
            rw [hsp, List.headI_cons, hpd]
          · show String.mk (joinWith ", ".data
              (splitDrop (fun a b => a == b) ", ".data displayName.data).tail) = ""
            rw [hsp]
            rfl
      | cons r rs =>
          right
          have hjw : p ++ ", ".data ++ joinWith ", ".data (r :: rs) = displayName.data := hrec
          show String.mk (splitDrop (fun a b => a == b) ", ".data displayName.data).headI
              ++ ", " ++ String.mk (joinWith ", ".data
                (splitDrop (fun a b => a == b) ", ".data displayName.data).tail)
              = displayName
          rw [hsp]
          show String.mk p ++ String.mk ", ".data ++ String.mk (joinWith ", ".data (r :: rs))
              = displayName
          rw [mk_append, mk_append, hjw]

/-- C8: for a burst of calls to the debounced invoker in which each call
arrives strictly within `delayMs` of the previous one, the wrapped
function executes exactly once, one delay after the last call, with the
last call's argument; every superseded pending call is cancelled and
never fires. -/
theorem debounce_burst_fires_once {α : Type} (delayMs : Nat) (calls : List (Nat × α))
    (hne : calls ≠ [])
    (hburst : List.Chain' (fun a b => b.1 < a.1 + delayMs) calls) :
    debounceFires delayMs calls =
      [((calls.getLast hne).1 + delayMs, (calls.getLast hne).2)] := by
  induction calls with
  | nil => exact absurd rfl hne
  | cons c rest ih =>
      cases rest with
      | nil =>
          obtain ⟨t, a⟩ := c
          rfl
      | cons d more =>
          obtain ⟨t, a⟩ := c
          obtain ⟨u, b⟩ := d
          have hcc := List.chain'_cons.mp hburst
          have h1 : u < t + delayMs := hcc.1
          have hrec := ih (by simp) hcc.2
          show (if u < t + delayMs then debounceFires delayMs ((u, b) :: more)
                else (t + delayMs, a) :: debounceFires delayMs ((u, b) :: more))
            = [((((t, a) :: (u, b) :: more).getLast (by simp)).1 + delayMs,
                (((t, a) :: (u, b) :: more).getLast (by simp)).2)]
          rw [if_pos h1, hrec]
          have hgl : (((t, a) :: (u, b) :: more).getLast (by simp))
              = (((u, b) :: more).getLast (by simp)) := List.getLast_cons (by simp)
          rw [hgl]

theorem debounce_burst_fires_once_witness :
    debounceFires 300 [(0, "a"), (50, "b"), (100, "c"), (150, "d")] = [(450, "d")] := by
  rw [debounce_burst_fires_once 300 [(0, "a"), (50, "b"), (100, "c"), (150, "d")]
    (by decide) (List.Chain.cons (by decide) (List.Chain.cons (by decide)
      (List.Chain.cons (by decide) List.Chain.nil)))]
  rfl

theorem splitKeepGo_flatten (eqc : Char → Char → Bool) (q : List Char) (hq : q ≠ []) :
    ∀ (fuel : Nat) (t : List Char), t.length ≤ fuel →
      (splitKeepGo eqc q fuel t).flatten = t := by
  intro fuel
  induction fuel with
  | zero =>
      intro t ht
      have htn : t = [] := List.length_eq_zero.mp (Nat.le_zero.mp ht)
      subst htn
      rfl
  | succ n ih =>
      intro t ht
      simp only [splitKeepGo]
      cases hf : findIdx eqc q t with
      | none => simp
      | some i =>
          show (t.take i :: (t.drop i).take q.length ::
            splitKeepGo eqc q n ((t.drop i).drop q.length)).flatten = t
          have hb := findIdx_bound eqc q t i hf
          have hql : 0 < q.length := List.length_pos.mpr hq
          have ht0 : 0 < t.length := by
            cases t with
            | nil => rw [findIdx_nil_none eqc q hq] at hf; cases hf
            | cons b t2 => simp
          have hrest : ((t.drop i).drop q.length).length ≤ n := by
            simp only [List.length_drop]
            omega
          have hrec := ih _ hrest
          simp only [List.flatten_cons, hrec]
          rw [List.take_append_drop, List.take_append_drop]

theorem data_ne_nil_of_trim (query : String) (h : jsTrim query ≠ "") :
    query.data ≠ [] := by
  intro hd
  apply h
  have hq : query = "" := by
    cases query with
    | mk data =>
        have hdd : data = [] := hd
        subst hdd
        rfl
  rw [hq]
  rfl

/-- C10: for every text and query on the transform path of
`highlightMatch` (and trivially on the raw paths), concatenating the
rendered segments in order yields exactly the original text — the
capturing-group split loses nothing and duplicates nothing. -/
theorem highlight_render_eq (text query : String) :
    renderText (highlightMatch text query) = text := by
  unfold highlightMatch
  split
  · rfl
  · rename_i hblank
    have hq : query.data ≠ [] := data_ne_nil_of_trim query hblank
    unfold renderText
    simp only [List.map_map]
    have hmap : ((splitKeep charEqCI query.data text.data).map
        (fun part => (hsegText (if part.map Char.toLower == query.data.map Char.toLower
          then Hseg.matched (String.mk part) else Hseg.plain (String.mk part))).data))
        = splitKeep charEqCI query.data text.data := by
      have hid : ∀ part : List Char,
          (hsegText (if part.map Char.toLower == query.data.map Char.toLower
            then Hseg.matched (String.mk part) else Hseg.plain (String.mk part))).data
          = part := by
        intro part
        split <;> rfl
      calc ((splitKeep charEqCI query.data text.data).map
            (fun part => (hsegText (if part.map Char.toLower == query.data.map Char.toLower
              then Hseg.matched (String.mk part) else Hseg.plain (String.mk part))).data))
          = (splitKeep charEqCI query.data text.data).map id := by
            apply List.map_congr_left
            intro part _
            exact hid part
        _ = splitKeep charEqCI query.data text.data := List.map_id _
    show String.mk (((splitKeep charEqCI query.data text.data).map
        (fun part => (hsegText (if part.map Char.toLower == query.data.map Char.toLower
          then Hseg.matched (String.mk part) else Hseg.plain (String.mk part))).data)).flatten)
      = text
    rw [hmap]
    unfold splitKeep
    rw [if_neg hq]
    rw [splitKeepGo_flatten charEqCI query.data hq text.data.length text.data Nat.le.refl]

theorem matchesAtCI_take :
    ∀ (q s : List Char), matchesAt charEqCI q s = true →
      (s.take q.length).map Char.toLower = q.map Char.toLower := by
  intro q
  induction q with
  | nil => intro s _; simp
  | cons a q ih =>
      intro s h
      cases s with
      | nil => simp [matchesAt] at h
      | cons b s =>
          simp only [matchesAt, Bool.and_eq_true] at h
          have hab : a.toLower = b.toLower := by
            have hx := h.1
            simpa [charEqCI] using hx
          simp [List.take_succ_cons, ih s h.2, hab]

/-- C5: `highlightMatch` is a total function (it cannot throw), and on
every non-blank query it treats the query literally — the escaping of
pattern metacharacters means every segment it tags `matched` is exactly a
case-insensitive copy of the query (a metacharacter such as `.` matches
only itself), and whenever the query occurs case-insensitively in the
text at least one segment is tagged `matched`. -/
theorem highlight_literal (text query : String) (h : jsTrim query ≠ "") :
    ∃ parts, highlightMatch text query = HighlightResult.segs parts ∧
      (∀ s ∈ parts, hsegIsMatched s = true →
        (hsegText s).data.map Char.toLower = query.data.map Char.toLower) ∧
      ((findIdx charEqCI query.data text.data).isSome = true →
        ∃ s, s ∈ parts ∧ hsegIsMatched s = true) := by
  refine ⟨(splitKeep charEqCI query.data text.data).map
      (fun part => if part.map Char.toLower == query.data.map Char.toLower
        then Hseg.matched (String.mk part) else Hseg.plain (String.mk part)), ?_, ?_, ?_⟩
  · unfold highlightMatch
    rw [if_neg h]
  · intro s hs hm
    obtain ⟨part, hpmem, hps⟩ := List.mem_map.mp hs
    by_cases hc : (part.map Char.toLower == query.data.map Char.toLower) = true
    · rw [if_pos hc] at hps
      subst hps
      exact eq_of_beq hc
    · rw [if_neg hc] at hps
      subst hps
      simp [hsegIsMatched] at hm
  · intro hfind
    have hq : query.data ≠ [] := data_ne_nil_of_trim query h
    obtain ⟨i, hf⟩ := Option.isSome_iff_exists.mp hfind
    have hb := findIdx_bound charEqCI query.data text.data i hf
    have hmid := matchesAtCI_take query.data (text.data.drop i) hb.1
    have ht0 : 0 < text.data.length := by
      cases hdd : text.data with
      | nil =>
          rw [hdd, findIdx_nil_none charEqCI query.data hq] at hf
          cases hf
      | cons b t2 => simp [hdd]
    have hsplit : ∃ rest, splitKeep charEqCI query.data text.data =
        text.data.take i :: (text.data.drop i).take query.data.length :: rest := by
      unfold splitKeep
      rw [if_neg hq]
      cases hlen : text.data.length with
      | zero => omega
      | succ n =>
          simp only [splitKeepGo]
          rw [hf]
          exact ⟨_, rfl⟩
    obtain ⟨rest, hsp⟩ := hsplit
    have hcond : (((text.data.drop i).take query.data.length).map Char.toLower
        == query.data.map Char.toLower) = true := beq_iff_eq.mpr hmid
    refine ⟨Hseg.matched (String.mk ((text.data.drop i).take query.data.length)), ?_, rfl⟩
    rw [hsp]
    refine List.mem_map.mpr
      ⟨(text.data.drop i).take query.data.length, by simp, ?_⟩
    simp only [hcond, if_true]

theorem highlight_literal_witness :
    ∃ parts, highlightMatch "St. Louis, MO" "St." = HighlightResult.segs parts ∧
      (∀ s ∈ parts, hsegIsMatched s = true →
        (hsegText s).data.map Char.toLower = "St.".data.map Char.toLower) ∧
      ((findIdx charEqCI "St.".data "St. Louis, MO".data).isSome = true →
        ∃ s, s ∈ parts ∧ hsegIsMatched s = true) :=
  highlight_literal "St. Louis, MO" "St." (by decide)
